import Mathlib

/-!
Verification of the response post-processing pipeline and completion gateway
of a small Python/Streamlit code-generation app (src/app.py).

Modelling conventions (shallow embedding):
* Python `str` values are modelled as `List Char`.
* The fixed, literal regular expressions of the source are modelled by
  executable scanning functions whose operational behaviour matches the
  leftmost / lazy / greedy backtracking semantics of Python's `re` module on
  those concrete patterns; doc comments record the derivations.
* The character classes `\s` (whitespace) and `\w` (word characters) are
  modelled over their ASCII parts, matching every input considered here;
  Python additionally accepts some non-ASCII code points in these classes.
* Calls to a remote text-generation provider are modelled by a function
  argument of type `List Char → POut`, where `POut` distinguishes a returned
  text from a raised exception carrying a message; `configured : Bool` models
  whether `configure_gemini` returned a model object (`True`) or `None`.
* Scanning functions that restart after a consumed match take a fuel
  argument; every caller passes the input length, which bounds the number of
  scanning steps (each step consumes at least one character).
-/

/-- ASCII part of Python's whitespace class `\s` (also used by `str.strip`). -/
def pySpace (c : Char) : Bool :=
  decide (c = ' ' ∨ c = '\t' ∨ c = '\n' ∨ c = '\x0b' ∨ c = '\x0c' ∨ c = '\r')

/-- ASCII part of Python's word-character class `\w`. -/
def pyWord (c : Char) : Bool :=
  decide (('a' ≤ c ∧ c ≤ 'z') ∨ ('A' ≤ c ∧ c ≤ 'Z') ∨ ('0' ≤ c ∧ c ≤ '9') ∨ c = '_')

/-- `pre pat s` holds when `pat` is a literal prefix of `s`. -/
def pre : List Char → List Char → Bool
  | [], _ => true
  | _ :: _, [] => false
  | p :: ps, c :: cs => if p = c then pre ps cs else false

/-- `splitFirst pat s` finds the leftmost occurrence of the literal `pat` in
`s`, returning the part before it and the part after it; `none` when `pat`
does not occur in `s`. -/
def splitFirst (pat : List Char) : List Char → Option (List Char × List Char)
  | [] => if pre pat [] then some ([], []) else none
  | c :: r =>
    if pre pat (c :: r) then some ([], (c :: r).drop pat.length)
    else match splitFirst pat r with
      | some (b, a) => some (c :: b, a)
      | none => none

/-- Leading-whitespace strip. -/
def ltrim (s : List Char) : List Char := s.dropWhile pySpace

/-- Trailing-whitespace strip. -/
def rtrim (s : List Char) : List Char := (s.reverse.dropWhile pySpace).reverse

/-- Full whitespace trim (Python `str.strip`). -/
def trim (s : List Char) : List Char := rtrim (ltrim s)

/-- The literal triple-backtick marker of the fenced-block regex. -/
def bt3 : List Char := "```".toList

/-- The literal optional language tag of the fenced-block regex. -/
def pyTag : List Char := "python".toList

/-- The literal triple-double-quote marker. -/
def q3dq : List Char := "\"\"\"".toList

/-- The remainder of `s` after the literal fenced-block opener and the
optional greedy language tag (which is taken whenever literally present; if
the rest of the pattern then fails, no closer follows the opener at all, so
retrying without the tag fails as well — the tag contains no backtick). -/
def fenceBody (s : List Char) : List Char :=
  if pre pyTag (s.drop 3) then (s.drop 3).drop 6 else s.drop 3

/-- One attempt of the regex pattern  ```(?:python)?\s*(.*?)\s*```  (DOTALL)
at the start of `s` (src/app.py line 44), returning the captured group and
the remainder after the whole match.

Backtracking derivation: after the opener and optional tag, the greedy `\s*`
takes the maximal whitespace run; on the remainder `u`, the lazy group takes
the shortest prefix that can be followed by whitespace and the closing
marker, which is the prefix before the first occurrence of the closer,
stripped of trailing whitespace (a longer whitespace suffix is consumed by
the trailing `\s*`, and an earlier closer cannot exist past a backtick).
Shrinking the leading `\s*` can never rescue a failed attempt, since
whitespace contains no backticks. -/
def tryFence (s : List Char) : Option (List Char × List Char) :=
  if pre bt3 s then
    match splitFirst bt3 ((fenceBody s).dropWhile pySpace) with
    | some (b, rest) => some (rtrim b, rest)
    | none => none
  else none

/-- `re.findall` of the fenced-block pattern: leftmost matches, scanning
resumes after each match end, a failed attempt advances one character. -/
def findallFenced : Nat → List Char → List (List Char)
  | 0, _ => []
  | _ + 1, [] => []
  | fuel + 1, c :: r =>
    match tryFence (c :: r) with
    | some (cap, rest) => cap :: findallFenced fuel rest
    | none => findallFenced fuel r

/-- One attempt of the regex pattern  \x22\x22\x22(.*?)\x22\x22\x22  (DOTALL)
at the start of `s` (src/app.py line 47): after the literal opener, the lazy
group ends at the first following occurrence of the closer. -/
def tryTripleDQ (s : List Char) : Option (List Char × List Char) :=
  if pre q3dq s then splitFirst q3dq (s.drop 3) else none

/-- `re.findall` of the triple-double-quote pattern. -/
def findallTripleDQ : Nat → List Char → List (List Char)
  | 0, _ => []
  | _ + 1, [] => []
  | fuel + 1, c :: r =>
    match tryTripleDQ (c :: r) with
    | some (cap, rest) => cap :: findallTripleDQ fuel rest
    | none => findallTripleDQ fuel r

/-- src/app.py lines 43-50, `extract_code_from_response`: first capture of the
fenced-block pattern if any, else first capture of the triple-double-quote
pattern if any, else the input itself. -/
def extract_code_from_response (response_text : List Char) : List Char :=
  match findallFenced response_text.length response_text with
  | b :: _ => b
  | [] =>
    match findallTripleDQ response_text.length response_text with
    | b :: _ => b
    | [] => response_text

/-- Claim-side description of one fenced-block attempt: the raw span between
the markers (after the optional language tag), trimmed of leading and
trailing whitespace only at the end. -/
def tryFenceSpec (s : List Char) : Option (List Char) :=
  if pre bt3 s then
    match splitFirst bt3 (fenceBody s) with
    | some (raw, _) => some (trim raw)
    | none => none
  else none

/-- Claim-side: content of the first complete fenced block, trimmed. -/
def fencedSpecFirst : List Char → Option (List Char)
  | [] => none
  | c :: r =>
    match tryFenceSpec (c :: r) with
    | some cap => some cap
    | none => fencedSpecFirst r

/-- Claim-side: content of the first complete triple-double-quote span. -/
def tripleSpecFirst : List Char → Option (List Char)
  | [] => none
  | c :: r =>
    match tryTripleDQ (c :: r) with
    | some (cap, _) => some cap
    | none => tripleSpecFirst r

/-- Claim-side restatement of `extractCode`: first fenced block's content
trimmed, else first triple-quote span's content, else the input unmodified. -/
def extractCode_spec (s : List Char) : List Char :=
  match fencedSpecFirst s with
  | some cap => cap
  | none =>
    match tripleSpecFirst s with
    | some cap => cap
    | none => s

/-- The one Python operation in the processing helpers that can raise:
indexing `code_blocks[0]`. -/
inductive PyErr where
  | indexError
deriving DecidableEq

/-- `extract_code_from_response` with its fallible list indexing made
explicit: `code_blocks[0]` raises on an empty list and is reached only
behind the `if code_blocks:` truthiness guards of src/app.py lines 45-49. -/
def extractE (s : List Char) : Except PyErr (List Char) :=
  let code_blocks := findallFenced s.length s
  if code_blocks.isEmpty then
    let code_blocks2 := findallTripleDQ s.length s
    if code_blocks2.isEmpty then Except.ok s
    else
      match code_blocks2 with
      | [] => Except.error PyErr.indexError
      | b :: _ => Except.ok b
  else
    match code_blocks with
    | [] => Except.error PyErr.indexError
    | b :: _ => Except.ok b

/-- Global substitution  re.sub(r'#.*', '', code)  (src/app.py line 56):
from each '#' everything up to (excluding) the next newline is removed;
the Boolean records whether the scan is inside a comment match. -/
def subHashAux : Bool → List Char → List Char
  | _, [] => []
  | false, c :: r => if c = '#' then subHashAux true r else c :: subHashAux false r
  | true, c :: r => if c = '\n' then c :: subHashAux false r else subHashAux true r

/-- Global substitution  re.sub of  qqq(.*?)qqq  (DOTALL) by the empty string,
for a quote character q (src/app.py lines 57-58). The leftmost match opens at
the first occurrence of the triple marker and closes at the next occurrence
after it (lazy group); if no closer follows the first opener, no occurrence
can serve as an opener at all (any later opener would need a closer even
further right), so the input is returned unchanged. Scanning resumes after
each removed match. -/
def subTripF : Nat → Char → List Char → List Char
  | 0, _, s => s
  | fuel + 1, q, s =>
    match splitFirst [q, q, q] s with
    | none => s
    | some (before, rest) =>
      match splitFirst [q, q, q] rest with
      | none => s
      | some (_, after) => before ++ subTripF fuel q after

/-- Python `code.split("\n")`. -/
def splitNL : List Char → List (List Char)
  | [] => [[]]
  | c :: r =>
    if c = '\n' then [] :: splitNL r
    else
      match splitNL r with
      | [] => [[c]]
      | l :: ls => (c :: l) :: ls

/-- Python `"\n".join(lines)`. -/
def joinNL : List (List Char) → List Char
  | [] => []
  | [l] => l
  | l :: ls => l ++ '\n' :: joinNL ls

/-- src/app.py line 56: `code = re.sub(r'#.*', '', code)`. -/
def hashStripped (code : List Char) : List Char := subHashAux false code

/-- src/app.py line 57: removal of the lazily matched triple-double-quote
spans from the '#'-stripped text. -/
def dqStripped (code : List Char) : List Char :=
  subTripF (hashStripped code).length '"' (hashStripped code)

/-- src/app.py line 58: removal of the lazily matched triple-single-quote
spans from the result of the previous step. -/
def sqStripped (code : List Char) : List Char :=
  subTripF (dqStripped code).length '\'' (dqStripped code)

/-- src/app.py lines 55-59, `clean_code`: strip '#' comments, remove
triple-double-quoted then triple-single-quoted spans, then drop every line
that is empty after `str.strip()` and rejoin with newlines. -/
def clean_code (code : List Char) : List Char :=
  joinNL ((splitNL (sqStripped code)).filter fun line => line.any fun ch => !(pySpace ch))

/-- The literal keyword of the first alternative of the import regex. -/
def kwImport : List Char := "import".toList

/-- The literal keyword of the second alternative of the import regex. -/
def kwFrom : List Char := "from".toList

/-- The part  \s+(\w+)  of the import pattern: at least one whitespace
character — `\s` includes the newline — then the captured maximal
word-character run; returns the capture and the remainder after the match.
Shrinking the greedy `\s+` cannot rescue a failed attempt, because every
shorter split leaves a whitespace character where `\w` is required. -/
def matchTail (t : List Char) : Option (List Char × List Char) :=
  if (t.takeWhile pySpace).isEmpty then none
  else
    match t.dropWhile pySpace with
    | [] => none
    | c :: r =>
      if pyWord c then some ((c :: r).takeWhile pyWord, (c :: r).dropWhile pyWord) else none

/-- One attempt of the regex  ^(?:import|from)\s+(\w+)  at a line-start
position (src/app.py line 53): a literal keyword (the alternatives cannot
both apply, their first characters differ), then `matchTail` on the
remainder. -/
def tryMatch (s : List Char) : Option (List Char × List Char) :=
  if pre kwImport s then matchTail (s.drop 6)
  else if pre kwFrom s then matchTail (s.drop 4)
  else none

/-- `re.findall` of the import pattern with `re.MULTILINE`: `^` matches at
position 0 and right after each newline; a match never ends in a newline
(it ends in a word character), so scanning after a match resumes mid-line;
a failed attempt advances one character. -/
def scanImports : Nat → List Char → Bool → List (List Char)
  | 0, _, _ => []
  | _ + 1, [], _ => []
  | fuel + 1, c :: r, atLineStart =>
    if atLineStart then
      match tryMatch (c :: r) with
      | some (nm, rest) => nm :: scanImports fuel rest false
      | none => scanImports fuel r (decide (c = '\n'))
    else scanImports fuel r (decide (c = '\n'))

/-- Python string comparison: strict lexicographic order by code point. -/
def lexLt : List Char → List Char → Bool
  | [], [] => false
  | [], _ :: _ => true
  | _ :: _, [] => false
  | a :: as, b :: bs => decide (a < b) || (decide (a = b) && lexLt as bs)

/-- Non-strict lexicographic order. -/
def lexLe (a b : List Char) : Bool := !(lexLt b a)

/-- Insertion step of insertion sort under `lexLe`. -/
def insertLex (x : List Char) : List (List Char) → List (List Char)
  | [] => [x]
  | y :: ys => if lexLe x y then x :: y :: ys else y :: insertLex x ys

/-- Insertion sort under `lexLe`; on distinct elements this is the unique
sorted arrangement, hence Python's `sorted`. -/
def sortLex : List (List Char) → List (List Char)
  | [] => []
  | x :: xs => insertLex x (sortLex xs)

/-- src/app.py lines 52-53, `extract_modules_from_code`:
`sorted(set(re.findall(...)))`. -/
def extract_modules_from_code (code : List Char) : List (List Char) :=
  sortLex (scanImports code.length code true).dedup

/-- Claim-side description of the scan of a single line: the name captured by
matching the import pattern against the line alone — a keyword at column 0,
then whitespace, then the first contiguous word-character run. -/
def lineImportName (line : List Char) : Option (List Char) :=
  (tryMatch line).map Prod.fst

/-- Claim-side restatement of `listModules`: the sorted deduplicated module
names captured line by line. -/
def perLineModules (code : List Char) : List (List Char) :=
  sortLex ((splitNL code).filterMap lineImportName).dedup

/-- A line-start keyword is followed by whitespace and then a word character
on its own line (so the `\s+` separator of a match never crosses a line
boundary). -/
def goodLines (code : List Char) : Bool :=
  (splitNL code).all fun line =>
    (!(pre kwImport line) || !(((line.drop 6).dropWhile pySpace).isEmpty)) &&
    (!(pre kwFrom line) || !(((line.drop 4).dropWhile pySpace).isEmpty))

/-- Outcome of one provider call: the returned text, or the message of the
raised exception. -/
inductive POut where
  | ok (text : List Char)
  | fail (msg : List Char)

/-- The two providers of the completion gateway. -/
inductive Provider where
  | primary
  | secondary
deriving DecidableEq

/-- Result record of `CompletionGateway.complete`. -/
structure CompletionResult where
  text : List Char
  providerUsed : Option Provider
  errors : List (Provider × List Char)
deriving DecidableEq

/-- Combined diagnostic text for the case in which both providers fail. -/
def bothFailedText (m1 m2 : List Char) : List Char :=
  "Primary provider failed: ".toList ++ m1 ++ "; secondary provider failed: ".toList ++ m2

/-- Modelled from the spec: `CompletionGateway.complete` with a primary and a
secondary provider (spec section 4.1). src/app.py contains a single provider
(`generate_code`, lines 61-78, calling Gemini inside try/except); the
two-provider fallback chain is the spec's generalized core and has no source
under src/. The second component records the provider invocations in order,
together with the prompt each one received. -/
def complete (primaryGen secondaryGen : List Char → POut) (prompt : List Char) :
    CompletionResult × List (Provider × List Char) :=
  match primaryGen prompt with
  | POut.ok t => (⟨t, some Provider.primary, []⟩, [(Provider.primary, prompt)])
  | POut.fail m1 =>
    match secondaryGen prompt with
    | POut.ok t =>
      (⟨t, some Provider.secondary, [(Provider.primary, m1)]⟩,
        [(Provider.primary, prompt), (Provider.secondary, prompt)])
    | POut.fail m2 =>
      (⟨bothFailedText m1 m2, none, [(Provider.primary, m1), (Provider.secondary, m2)]⟩,
        [(Provider.primary, prompt), (Provider.secondary, prompt)])

/-- src/app.py line 64: in-band text when `configure_gemini` returned None. -/
def apiNotConfigured : List Char :=
  "⚠️ API not configured. Please check your API key.".toList

/-- src/app.py line 78: prefix of the in-band generation-failure text. -/
def errGenPrefix : List Char := "⚠️ Error generating code: ".toList

/-- Literal text before the JSON prompt inside the f-string of
src/app.py lines 67-74. -/
def genPromptPre : List Char :=
  "As an expert Python developer, analyze this JSON request and generate clean, minimal Python code: \n            ".toList

/-- Literal text after the JSON prompt inside the same f-string. -/
def genPromptPost : List Char :=
  "\n            \n            Requirements:\n            1. Essential code only (no comments/docs)\n            2. Concise and functional\n            3. Efficient, modern Python\n            4. Wrap response inside ```python".toList

/-- src/app.py lines 61-78, `generate_code`: returns the configuration
diagnostic when the model is not configured, the provider's text on success,
and the in-band error text when the provider raises. -/
def generate_code (configured : Bool) (gen : List Char → POut) (json_prompt : List Char) :
    List Char :=
  if !configured then apiNotConfigured
  else
    match gen (genPromptPre ++ json_prompt ++ genPromptPost) with
    | POut.ok t => t
    | POut.fail e => errGenPrefix ++ e

/-- JSON string escaping of `json.dumps` for the characters that need it,
modelled for ASCII inputs (other control characters and non-ASCII code
points, which `json.dumps` writes as \uXXXX, do not occur in the inputs
considered here and are untouched by every claim). -/
def jsonEscapeChar (c : Char) : List Char :=
  if c = '"' then ['\\', '"']
  else if c = '\\' then ['\\', '\\']
  else if c = '\n' then ['\\', 'n']
  else if c = '\t' then ['\\', 't']
  else if c = '\r' then ['\\', 'r']
  else [c]

/-- JSON string escaping applied characterwise. -/
def jsonEscape (s : List Char) : List Char := (s.map jsonEscapeChar).flatten

/-- Literal part of `json.dumps({...}, indent=2)` before the user prompt
(src/app.py lines 30-41). -/
def jsonPromptPre : List Char :=
  "\x7b\n  \"request\": \"generate_python_code\",\n  \"prompt\": \"".toList

/-- Literal part of the same JSON document after the user prompt. -/
def jsonPromptPost : List Char :=
  "\",\n  \"requirements\": \x7b\n    \"language\": \"python\",\n    \"code_style\": \"minimal\",\n    \"include_comments\": false,\n    \"include_docs\": false,\n    \"include_examples\": false\n  \x7d\n\x7d".toList

/-- src/app.py lines 30-41, `create_json_prompt`. -/
def create_json_prompt (user_prompt : List Char) : List Char :=
  jsonPromptPre ++ jsonEscape user_prompt ++ jsonPromptPost

/-- The four `st.session_state` fields initialised at src/app.py lines
104-106. Python initialises `modules` to the empty string; it is only ever
read for truthiness and as a list afterwards, so it is typed here as a list,
with the empty list as the falsy initial value. -/
structure SessionState where
  json_prompt : List Char
  generated_output : List Char
  modules : List (List Char)
  explanation : List Char
deriving DecidableEq

/-- All-empty initial session state. -/
def initState : SessionState := ⟨[], [], [], []⟩

/-- src/app.py lines 127-134, the generate-button handler: guarded by the
Python truthiness conjunction `generate_btn and user_prompt` (an empty string
is falsy, any non-empty string — including whitespace-only — is truthy). -/
def generate_handler (generate_btn : Bool) (user_prompt : List Char)
    (configured : Bool) (gen : List Char → POut) (st : SessionState) : SessionState :=
  if generate_btn && !user_prompt.isEmpty then
    let jp := create_json_prompt user_prompt
    let raw_output := generate_code configured gen jp
    let extracted_code := extract_code_from_response raw_output
    let cleaned := clean_code extracted_code
    { json_prompt := jp, generated_output := cleaned,
      modules := extract_modules_from_code cleaned, explanation := [] }
  else st

/-- src/app.py line 99: prefix of the in-band explanation-failure text. -/
def errExplainPrefix : List Char := "⚠️ Error generating explanation: ".toList

/-- Literal text before the code inside the f-string of src/app.py
lines 85-95 (with the default user level "beginner" substituted). -/
def explainPromptPre : List Char :=
  "\n        Explain this Python code in Hinglish (Hindi + English) for a beginner level programmer:\n        ".toList

/-- Literal text after the code inside the same f-string. -/
def explainPromptPost : List Char :=
  "\n        \n        Guidelines:\n        - Easy to understand with simple analogies\n        - Use mix of Hindi and English words\n        - Explain main sections\n        - Conversational and friendly\n        - Length depend upon code\n        ".toList

/-- src/app.py lines 80-99, `explain_code_hinglish`. -/
def explain_code_hinglish (configured : Bool) (gen : List Char → POut) (code : List Char) :
    List Char :=
  if !configured then apiNotConfigured
  else
    match gen (explainPromptPre ++ code ++ explainPromptPost) with
    | POut.ok t => t
    | POut.fail e => errExplainPrefix ++ e

/-- src/app.py lines 154-156, the explain-button handler (the button exists
only while `generated_output` is truthy). -/
def explain_handler (configured : Bool) (gen : List Char → POut) (st : SessionState) :
    SessionState :=
  if !st.generated_output.isEmpty then
    { st with explanation := explain_code_hinglish configured gen st.generated_output }
  else st

/-! ## Helper lemmas -/

theorem pre_iff (pat s : List Char) : pre pat s = true ↔ ∃ t, s = pat ++ t := by
  induction pat generalizing s with
  | nil => simp [pre]
  | cons p ps ih =>
    cases s with
    | nil =>
      simp only [pre, List.cons_append]
      constructor
      · intro h; exact absurd h (by simp)
      · rintro ⟨t, ht⟩; exact absurd ht (by simp)
    | cons c cs =>
      by_cases h : p = c
      · subst h
        simpa [pre] using ih cs
      · simp only [pre, if_neg h, List.cons_append]
        constructor
        · intro hf; exact absurd hf (by simp)
        · rintro ⟨t, ht⟩
          exact absurd (List.cons.injEq .. ▸ ht) (by simp [h]; intro hc; exact absurd hc.symm h)

theorem pre_length_le {pat s : List Char} (h : pre pat s = true) :
    pat.length ≤ s.length := by
  obtain ⟨t, rfl⟩ := (pre_iff pat s).1 h
  simp

theorem pre_append {pat s : List Char} (t : List Char) (h : pre pat s = true) :
    pre pat (s ++ t) = true := by
  obtain ⟨u, rfl⟩ := (pre_iff pat s).1 h
  exact (pre_iff _ _).2 ⟨u ++ t, by simp⟩

/-- For a newline-free pattern, matching at the start of `line ++ '\n' :: rest`
is the same as matching at the start of `line` alone. -/
theorem pre_append_newline {pat line rest : List Char} (hnl : '\n' ∉ pat) :
    pre pat (line ++ '\n' :: rest) = pre pat line := by
  induction pat generalizing line with
  | nil => simp [pre]
  | cons p ps ih =>
    have hp : p ≠ '\n' := fun h => hnl (h ▸ List.mem_cons_self p ps)
    have hps : '\n' ∉ ps := fun h => hnl (List.mem_cons_of_mem p h)
    cases line with
    | nil =>
      simp only [List.nil_append, pre]
      rw [if_neg (fun h => hp h)]
    | cons c cs =>
      simp only [List.cons_append, pre]
      by_cases h : p = c
      · rw [if_pos h, if_pos h]
        exact ih hps
      · rw [if_neg h, if_neg h]

theorem splitFirst_eq {pat : List Char} :
    ∀ {s b a : List Char}, splitFirst pat s = some (b, a) → s = b ++ pat ++ a := by
  intro s
  induction s with
  | nil =>
    intro b a h
    simp only [splitFirst] at h
    by_cases hp : pre pat [] = true
    · rw [if_pos hp] at h
      obtain ⟨t, ht⟩ := (pre_iff pat []).1 hp
      have hpat : pat = [] := by
        cases pat with
        | nil => rfl
        | cons x xs => simp at ht
      simp only [Option.some.injEq, Prod.mk.injEq] at h
      obtain ⟨h1, h2⟩ := h
      subst h1; subst h2
      simp [hpat]
    · rw [if_neg hp] at h; exact absurd h (by simp)
  | cons c r ih =>
    intro b a h
    simp only [splitFirst] at h
    by_cases hp : pre pat (c :: r) = true
    · rw [if_pos hp] at h
      obtain ⟨t, ht⟩ := (pre_iff pat (c :: r)).1 hp
      simp only [Option.some.injEq, Prod.mk.injEq] at h
      obtain ⟨h1, h2⟩ := h
      subst h1; subst h2
      have hdrop : (c :: r).drop pat.length = t := by
        rw [ht]; exact List.drop_left _ _
      rw [hdrop, ht]
      simp
    · rw [if_neg hp] at h
      cases hsf : splitFirst pat r with
      | none => rw [hsf] at h; exact absurd h (by simp)
      | some ba =>
        obtain ⟨b', a'⟩ := ba
        rw [hsf] at h
        simp at h
        rw [← h.1, ← h.2]
        simpa using ih hsf

theorem splitFirst_none_of_not_mem {q : Char} {s : List Char}
    (h : q ∉ s) : splitFirst [q, q, q] s = none := by
  induction s with
  | nil => simp [splitFirst, pre]
  | cons c r ih =>
    have hqc : q ≠ c := fun hx => h (hx ▸ List.mem_cons_self c r)
    have hqr : q ∉ r := fun hx => h (List.mem_cons_of_mem c hx)
    have hpre : pre [q, q, q] (c :: r) = false := by
      simp only [pre]
      rw [if_neg hqc]
    simp only [splitFirst, hpre, Bool.false_eq_true, if_false]
    rw [ih hqr]

theorem splitFirst_cons_head {pat : List Char} {c : Char} {r b a : List Char}
    (h : splitFirst pat (c :: r) = some (b, a)) : b = [] ∨ ∃ b', b = c :: b' := by
  simp only [splitFirst] at h
  by_cases hp : pre pat (c :: r) = true
  · rw [if_pos hp] at h
    simp only [Option.some.injEq, Prod.mk.injEq] at h
    exact Or.inl h.1.symm
  · rw [if_neg hp] at h
    cases hsf : splitFirst pat r with
    | none => rw [hsf] at h; exact absurd h (by simp)
    | some ba =>
      obtain ⟨b', a'⟩ := ba
      rw [hsf] at h
      simp only [Option.some.injEq, Prod.mk.injEq] at h
      exact Or.inr ⟨b', h.1.symm⟩

/-- Stripping leading whitespace commutes with finding the leftmost occurrence
of a pattern that does not start with whitespace: the occurrence's position is
unchanged and only leading whitespace of the before-part disappears. -/
theorem splitFirst_dropWhile_pySpace {pat : List Char} (hpat : pat ≠ [])
    (hx : pySpace pat.headI = false) (s : List Char) :
    splitFirst pat (s.dropWhile pySpace) =
      (splitFirst pat s).map (fun q => (q.1.dropWhile pySpace, q.2)) := by
  obtain ⟨x, xs, rfl⟩ := List.exists_cons_of_ne_nil hpat
  simp only [List.headI] at hx
  induction s with
  | nil => simp [splitFirst, pre]
  | cons c r ih =>
    rw [List.dropWhile_cons]
    by_cases hc : pySpace c = true
    · rw [if_pos hc, ih]
      have hxc : x ≠ c := by
        intro he
        rw [he, hc] at hx
        exact Bool.noConfusion hx
      have hpre : pre (x :: xs) (c :: r) = false := by
        simp only [pre]
        rw [if_neg hxc]
      cases hsf : splitFirst (x :: xs) r with
      | none => simp [splitFirst, hpre, hsf]
      | some ba =>
        obtain ⟨b, a⟩ := ba
        simp only [splitFirst, hpre, Bool.false_eq_true, if_false, hsf, Option.map_some]
        simp [List.dropWhile_cons, hc]
    · rw [if_neg hc]
      cases hsf : splitFirst (x :: xs) (c :: r) with
      | none => simp [hsf]
      | some ba =>
        obtain ⟨b, a⟩ := ba
        rcases splitFirst_cons_head hsf with hb | ⟨b', rfl⟩
        · subst hb
          simp [hsf]
        · simp [hsf, List.dropWhile_cons, hc]

/-- The regex capture of one fenced-block attempt equals the raw between-marker
span trimmed at the end: the greedy leading and trailing whitespace consumption
inside the pattern amounts to a `strip` of the raw content. -/
theorem tryFence_fst (s : List Char) : (tryFence s).map Prod.fst = tryFenceSpec s := by
  unfold tryFence tryFenceSpec
  by_cases hp : pre bt3 s = true
  · rw [if_pos hp, if_pos hp]
    have hsplit := @splitFirst_dropWhile_pySpace bt3 (by decide) (by decide) (fenceBody s)
    cases hsf : splitFirst bt3 (fenceBody s) with
    | none =>
      rw [hsf] at hsplit
      simp only [Option.map_none'] at hsplit
      rw [hsplit]
      rfl
    | some ba =>
      obtain ⟨raw, rest⟩ := ba
      rw [hsf] at hsplit
      simp only [Option.map_some'] at hsplit
      rw [hsplit]
      simp [trim, ltrim]
  · rw [if_neg hp, if_neg hp]
    rfl

theorem findallFenced_head :
    ∀ (f : Nat) (s : List Char), s.length ≤ f →
      (findallFenced f s).head? = fencedSpecFirst s := by
  intro f
  induction f with
  | zero =>
    intro s hs
    have hnil : s = [] := List.eq_nil_of_length_eq_zero (Nat.le_zero.mp hs)
    subst hnil
    rfl
  | succ f ih =>
    intro s hs
    cases s with
    | nil => rfl
    | cons c r =>
      simp only [findallFenced, fencedSpecFirst]
      have h1 := tryFence_fst (c :: r)
      cases htf : tryFence (c :: r) with
      | some capRest =>
        obtain ⟨cap, rest⟩ := capRest
        rw [htf] at h1
        simp only [Option.map_some'] at h1
        rw [← h1]
        simp
      | none =>
        rw [htf] at h1
        simp only [Option.map_none'] at h1
        rw [← h1]
        exact ih r (by simpa using Nat.succ_le_succ_iff.mp hs)

theorem findallTripleDQ_head :
    ∀ (f : Nat) (s : List Char), s.length ≤ f →
      (findallTripleDQ f s).head? = tripleSpecFirst s := by
  intro f
  induction f with
  | zero =>
    intro s hs
    have hnil : s = [] := List.eq_nil_of_length_eq_zero (Nat.le_zero.mp hs)
    subst hnil
    rfl
  | succ f ih =>
    intro s hs
    cases s with
    | nil => rfl
    | cons c r =>
      simp only [findallTripleDQ, tripleSpecFirst]
      cases htf : tryTripleDQ (c :: r) with
      | some capRest =>
        obtain ⟨cap, rest⟩ := capRest
        simp
      | none =>
        exact ih r (by simpa using Nat.succ_le_succ_iff.mp hs)

/-- Claim C4: for every input string, `extract_code_from_response` returns the
content of the first fenced triple-backtick block trimmed of leading/trailing
whitespace when at least one such block exists (the optional language tag not
being part of the content); otherwise the content of the first span delimited
by triple-quote markers when one exists; otherwise the input unmodified. -/
theorem extract_code_matches_spec (s : List Char) :
    extract_code_from_response s = extractCode_spec s := by
  unfold extract_code_from_response extractCode_spec
  have h1 := findallFenced_head s.length s le_rfl
  have h2 := findallTripleDQ_head s.length s le_rfl
  cases hm : findallFenced s.length s with
  | cons b bs =>
    rw [hm] at h1
    simp only [List.head?_cons] at h1
    rw [← h1]
  | nil =>
    rw [hm] at h1
    simp only [List.head?_nil] at h1
    rw [← h1]
    cases hm2 : findallTripleDQ s.length s with
    | cons b bs =>
      rw [hm2] at h2
      simp only [List.head?_cons] at h2
      rw [← h2]
    | nil =>
      rw [hm2] at h2
      simp only [List.head?_nil] at h2
      rw [← h2]

/-- Claim C5: whenever the first fenced block of the input has empty captured
content, `extract_code_from_response` returns the empty string — it does not
fall through to the triple-quote search nor to returning the raw input. -/
theorem extract_code_empty_fenced_block (s : List Char)
    (h : (findallFenced s.length s).head? = some []) :
    extract_code_from_response s = [] := by
  unfold extract_code_from_response
  cases hm : findallFenced s.length s with
  | nil => rw [hm] at h; exact absurd h (by simp)
  | cons b bs =>
    rw [hm] at h
    simp only [List.head?_cons, Option.some.injEq] at h
    exact h

/-- Witness for C5 at a concrete input containing an empty fenced block
followed by a non-empty triple-quoted span. -/
theorem extract_code_empty_fenced_block_witness :
    extract_code_from_response ("Here:\n```\n```\ntail \"\"\"q\"\"\"".toList) = [] :=
  extract_code_empty_fenced_block ("Here:\n```\n```\ntail \"\"\"q\"\"\"".toList) (by decide)

/-- Claim C10: the three processing helpers are total and deterministic —
`extract_code_from_response` with its one fallible operation (`code_blocks[0]`)
made explicit never reaches the raising branch, and equal inputs give equal
outputs for all three helpers (they are pure functions of their argument). -/
theorem processors_total_deterministic (s : List Char) :
    extractE s = Except.ok (extract_code_from_response s) ∧
    (∀ t, t = s →
      clean_code t = clean_code s ∧ extract_modules_from_code t = extract_modules_from_code s) := by
  constructor
  · unfold extractE extract_code_from_response
    cases hm : findallFenced s.length s with
    | cons b bs => simp [hm]
    | nil =>
      cases hm2 : findallTripleDQ s.length s with
      | cons b bs => simp [hm, hm2]
      | nil => simp [hm, hm2]
  · intro t ht
    subst ht
    exact ⟨rfl, rfl⟩

/-- Witness for C10 at a concrete input. -/
theorem processors_total_deterministic_witness :
    extractE ("x = 1 # c".toList) = Except.ok (extract_code_from_response ("x = 1 # c".toList)) ∧
    (clean_code ("x = 1 # c".toList) = clean_code ("x = 1 # c".toList) ∧
      extract_modules_from_code ("x = 1 # c".toList) = extract_modules_from_code ("x = 1 # c".toList)) :=
  ⟨(processors_total_deterministic ("x = 1 # c".toList)).1,
    (processors_total_deterministic ("x = 1 # c".toList)).2 ("x = 1 # c".toList) rfl⟩

theorem subHash_no_hash : ∀ (b : Bool) (s : List Char), '#' ∉ subHashAux b s := by
  intro b s
  induction s generalizing b with
  | nil => cases b <;> simp [subHashAux]
  | cons c r ih =>
    cases b with
    | false =>
      by_cases hc : c = '#'
      · simp only [subHashAux, if_pos hc]
        exact ih true
      · simp only [subHashAux, if_neg hc]
        intro hmem
        rcases List.mem_cons.mp hmem with h | h
        · exact hc h.symm
        · exact ih false h
    | true =>
      by_cases hc : c = '\n'
      · simp only [subHashAux, if_pos hc]
        intro hmem
        rcases List.mem_cons.mp hmem with h | h
        · exact absurd (h.trans hc) (by decide)
        · exact ih false h
      · simp only [subHashAux, if_neg hc]
        exact ih true

theorem mem_subHash : ∀ (b : Bool) (s : List Char) (x : Char),
    x ∈ subHashAux b s → x ∈ s := by
  intro b s
  induction s generalizing b with
  | nil => intro x hx; cases b <;> simp [subHashAux] at hx
  | cons c r ih =>
    intro x hx
    cases b with
    | false =>
      by_cases hc : c = '#'
      · simp only [subHashAux, if_pos hc] at hx
        exact List.mem_cons_of_mem c (ih true x hx)
      · simp only [subHashAux, if_neg hc] at hx
        rcases List.mem_cons.mp hx with h | h
        · exact h ▸ List.mem_cons_self c r
        · exact List.mem_cons_of_mem c (ih false x h)
    | true =>
      by_cases hc : c = '\n'
      · simp only [subHashAux, if_pos hc] at hx
        rcases List.mem_cons.mp hx with h | h
        · exact h ▸ List.mem_cons_self c r
        · exact List.mem_cons_of_mem c (ih false x h)
      · simp only [subHashAux, if_neg hc] at hx
        exact List.mem_cons_of_mem c (ih true x hx)

theorem subHash_id {s : List Char} (h : '#' ∉ s) : subHashAux false s = s := by
  induction s with
  | nil => rfl
  | cons c r ih =>
    have hc : c ≠ '#' := fun hx => h (hx ▸ List.mem_cons_self c r)
    have hr : '#' ∉ r := fun hx => h (List.mem_cons_of_mem c hx)
    simp only [subHashAux, if_neg (fun hx => hc hx)]
    rw [ih hr]

theorem mem_subTripF : ∀ (f : Nat) (q : Char) (s : List Char) (x : Char),
    x ∈ subTripF f q s → x ∈ s := by
  intro f
  induction f with
  | zero => intro q s x hx; exact hx
  | succ f ih =>
    intro q s x hx
    simp only [subTripF] at hx
    cases h1 : splitFirst [q, q, q] s with
    | none => rw [h1] at hx; exact hx
    | some ba =>
      obtain ⟨before, rest⟩ := ba
      rw [h1] at hx
      have hx' : x ∈ (match splitFirst [q, q, q] rest with
        | none => s
        | some (_, after) => before ++ subTripF f q after) := hx
      cases h2 : splitFirst [q, q, q] rest with
      | none => rw [h2] at hx'; exact hx'
      | some ca =>
        obtain ⟨content, after⟩ := ca
        rw [h2] at hx'
        rcases List.mem_append.mp hx' with h | h
        · rw [splitFirst_eq h1]
          simp [h]
        · have hafter : x ∈ after := ih q after x h
          rw [splitFirst_eq h1, splitFirst_eq h2]
          simp [hafter]

theorem subTripF_id {q : Char} {s : List Char} (h : q ∉ s) (f : Nat) :
    subTripF f q s = s := by
  cases f with
  | zero => rfl
  | succ f => simp [subTripF, splitFirst_none_of_not_mem h]

theorem splitNL_ne_nil (s : List Char) : splitNL s ≠ [] := by
  cases s with
  | nil => simp [splitNL]
  | cons c r =>
    by_cases hc : c = '\n'
    · simp [splitNL, hc]
    · simp only [splitNL, if_neg hc]
      cases splitNL r <;> simp

theorem not_mem_nl_splitNL : ∀ (s : List Char) (l : List Char), l ∈ splitNL s → '\n' ∉ l := by
  intro s
  induction s with
  | nil =>
    intro l hl
    simp [splitNL] at hl
    simp [hl]
  | cons c r ih =>
    intro l hl
    by_cases hc : c = '\n'
    · simp only [splitNL, if_pos hc] at hl
      rcases List.mem_cons.mp hl with h | h
      · simp [h]
      · exact ih l h
    · simp only [splitNL, if_neg hc] at hl
      cases hsr : splitNL r with
      | nil => exact absurd hsr (splitNL_ne_nil r)
      | cons l0 ls =>
        rw [hsr] at hl
        rcases List.mem_cons.mp hl with h | h
        · subst h
          intro hmem
          rcases List.mem_cons.mp hmem with h' | h'
          · exact hc h'.symm
          · exact ih l0 (hsr ▸ List.mem_cons_self l0 ls) h'
        · exact ih l (hsr ▸ List.mem_cons_of_mem l0 h)

theorem mem_of_mem_splitNL : ∀ (s l : List Char), l ∈ splitNL s → ∀ x, x ∈ l → x ∈ s := by
  intro s
  induction s with
  | nil =>
    intro l hl x hx
    simp [splitNL] at hl
    subst hl
    simp at hx
  | cons c r ih =>
    intro l hl x hx
    by_cases hc : c = '\n'
    · simp only [splitNL, if_pos hc] at hl
      rcases List.mem_cons.mp hl with h | h
      · subst h; simp at hx
      · exact List.mem_cons_of_mem c (ih l h x hx)
    · simp only [splitNL, if_neg hc] at hl
      cases hsr : splitNL r with
      | nil => exact absurd hsr (splitNL_ne_nil r)
      | cons l0 ls =>
        rw [hsr] at hl
        rcases List.mem_cons.mp hl with h | h
        · subst h
          rcases List.mem_cons.mp hx with h' | h'
          · exact h' ▸ List.mem_cons_self c r
          · exact List.mem_cons_of_mem c (ih l0 (hsr ▸ List.mem_cons_self l0 ls) x h')
        · exact List.mem_cons_of_mem c (ih l (hsr ▸ List.mem_cons_of_mem l0 h) x hx)

theorem splitNL_no_newline {s : List Char} (h : '\n' ∉ s) : splitNL s = [s] := by
  induction s with
  | nil => rfl
  | cons c r ih =>
    have hc : c ≠ '\n' := fun hx => h (hx ▸ List.mem_cons_self c r)
    have hr : '\n' ∉ r := fun hx => h (List.mem_cons_of_mem c hx)
    simp only [splitNL, if_neg (fun hx => hc hx)]
    rw [ih hr]

theorem splitNL_append_newline {line : List Char} (rest : List Char) (h : '\n' ∉ line) :
    splitNL (line ++ '\n' :: rest) = line :: splitNL rest := by
  induction line with
  | nil => simp [splitNL]
  | cons c l' ih =>
    have hc : c ≠ '\n' := fun hx => h (hx ▸ List.mem_cons_self c l')
    have hl : '\n' ∉ l' := fun hx => h (List.mem_cons_of_mem c hx)
    show splitNL (c :: (l' ++ '\n' :: rest)) = (c :: l') :: splitNL rest
    simp only [splitNL, if_neg (fun hx => hc hx)]
    rw [ih hl]

theorem nl_mem_of_splitNL_length : ∀ s : List Char, 2 ≤ (splitNL s).length → '\n' ∈ s := by
  intro s
  induction s with
  | nil => intro h; simp [splitNL] at h
  | cons c r ih =>
    intro h
    by_cases hc : c = '\n'
    · exact hc ▸ List.mem_cons_self c r
    · simp only [splitNL, if_neg hc] at h
      cases hsr : splitNL r with
      | nil => exact absurd hsr (splitNL_ne_nil r)
      | cons l0 ls =>
        rw [hsr] at h
        simp at h
        have : 2 ≤ (splitNL r).length := by rw [hsr]; simp; omega
        exact List.mem_cons_of_mem c (ih this)

theorem mem_joinNL : ∀ (ls : List (List Char)) (x : Char),
    x ∈ joinNL ls → (∃ l ∈ ls, x ∈ l) ∨ (x = '\n' ∧ 2 ≤ ls.length) := by
  intro ls
  induction ls with
  | nil => intro x hx; simp [joinNL] at hx
  | cons l ls' ih =>
    intro x hx
    cases ls' with
    | nil =>
      left
      exact ⟨l, List.mem_cons_self l [], hx⟩
    | cons l2 ls'' =>
      rw [show joinNL (l :: l2 :: ls'') = l ++ '\n' :: joinNL (l2 :: ls'') from rfl] at hx
      rcases List.mem_append.mp hx with h | h
      · exact Or.inl ⟨l, List.mem_cons_self l _, h⟩
      · rcases List.mem_cons.mp h with h' | h'
        · exact Or.inr ⟨h', by simp⟩
        · rcases ih x h' with ⟨l', hl', hxl'⟩ | ⟨hnl, _⟩
          · exact Or.inl ⟨l', List.mem_cons_of_mem l hl', hxl'⟩
          · exact Or.inr ⟨hnl, by simp⟩

theorem splitNL_joinNL : ∀ ls : List (List Char), ls ≠ [] →
    (∀ l ∈ ls, '\n' ∉ l) → splitNL (joinNL ls) = ls := by
  intro ls
  induction ls with
  | nil => intro h; exact absurd rfl h
  | cons l ls' ih =>
    intro _ h
    cases ls' with
    | nil =>
      rw [show joinNL [l] = l from rfl]
      exact splitNL_no_newline (h l (List.mem_cons_self l []))
    | cons l2 ls'' =>
      rw [show joinNL (l :: l2 :: ls'') = l ++ '\n' :: joinNL (l2 :: ls'') from rfl]
      rw [splitNL_append_newline _ (h l (List.mem_cons_self l _))]
      rw [ih (by simp) (fun l' hl' => h l' (List.mem_cons_of_mem l hl'))]

theorem clean_code_no_hash (s : List Char) : '#' ∉ clean_code s := by
  intro hmem
  rcases mem_joinNL _ _ hmem with ⟨l, hl, hcl⟩ | ⟨heq, _⟩
  · have hl' : l ∈ splitNL (sqStripped s) := (List.mem_filter.mp hl).1
    have h1 : '#' ∈ sqStripped s := mem_of_mem_splitNL _ _ hl' _ hcl
    have h2 : '#' ∈ dqStripped s := mem_subTripF _ _ _ _ h1
    have h3 : '#' ∈ hashStripped s := mem_subTripF _ _ _ _ h2
    exact subHash_no_hash false s h3
  · exact absurd heq (by decide)

theorem mem_clean_code {s : List Char} {x : Char} (h : x ∈ clean_code s) :
    x ∈ sqStripped s := by
  rcases mem_joinNL _ _ h with ⟨l, hl, hcl⟩ | ⟨heq, hlen⟩
  · exact mem_of_mem_splitNL _ _ (List.mem_filter.mp hl).1 _ hcl
  · subst heq
    apply nl_mem_of_splitNL_length
    calc 2 ≤ ((splitNL (sqStripped s)).filter fun line => line.any fun ch => !(pySpace ch)).length :=
          hlen
      _ ≤ (splitNL (sqStripped s)).length := (List.filter_sublist _).length_le

theorem mem_clean_code_orig {s : List Char} {x : Char} (h : x ∈ clean_code s) : x ∈ s :=
  mem_subHash _ _ _ (mem_subTripF _ _ _ _ (mem_subTripF _ _ _ _ (mem_clean_code h)))

/-- A rejoin of nonblank newline-free lines is left unchanged by the
split-filter-rejoin step. -/
theorem joinNL_filter_fixed (ls : List (List Char))
    (h : ∀ l ∈ ls, '\n' ∉ l ∧ l.any (fun ch => !(pySpace ch)) = true) :
    joinNL ((splitNL (joinNL ls)).filter fun line => line.any fun ch => !(pySpace ch)) =
      joinNL ls := by
  cases ls with
  | nil => rfl
  | cons l ls' =>
    rw [splitNL_joinNL (l :: ls') (by simp) (fun l' hl' => (h l' hl').1)]
    rw [List.filter_eq_self.mpr (fun a ha => (h a ha).2)]

/-- Claim C6: for every input, the output of `clean_code` contains no '#'
character and no empty or whitespace-only line (it may be the empty string);
and on the spec's concrete example the comment, docstring and blank line are
removed with the whitespace before the stripped comment preserved. -/
theorem clean_code_no_blank_no_hash :
    (∀ s : List Char, '#' ∉ clean_code s ∧
      (clean_code s = [] ∨
        ∀ l ∈ splitNL (clean_code s), l.any (fun ch => !(pySpace ch)) = true)) ∧
    clean_code ("x=1  # comment\n\n\"\"\"doc\"\"\"\ny=2".toList) = "x=1  \ny=2".toList := by
  constructor
  · intro s
    refine ⟨clean_code_no_hash s, ?_⟩
    by_cases hfe : ((splitNL (sqStripped s)).filter fun line => line.any fun ch => !(pySpace ch)) = []
    · left
      show joinNL _ = []
      rw [hfe]
      rfl
    · right
      intro l hl
      have hsplit : splitNL (clean_code s) =
          (splitNL (sqStripped s)).filter fun line => line.any fun ch => !(pySpace ch) := by
        show splitNL (joinNL _) = _
        exact splitNL_joinNL _ hfe
          (fun l' hl' => not_mem_nl_splitNL _ _ (List.mem_filter.mp hl').1)
      rw [hsplit] at hl
      exact (List.mem_filter.mp hl).2
  · decide

/-- Witness for C6 (whose first conjunct carries inner hypotheses) at a
concrete input: its first output line is concretely not blank. -/
theorem clean_code_no_blank_no_hash_witness :
    ("x=1  ".toList).any (fun ch => !(pySpace ch)) = true :=
  (Or.resolve_left ((clean_code_no_blank_no_hash.1 ("x=1  # c\n\ny=2".toList)).2) (by decide))
    ("x=1  ".toList) (by decide)

/-- Counterexample to claim C7: `clean_code` is not idempotent. In the input
below the triple-single-quote removals merge stray double quotes into a new
triple-double-quoted span, which only a second application removes. -/
theorem clean_code_not_idempotent_counterexample :
    clean_code (clean_code ("\"\"'''a'''\"b\"\"'''c'''\"".toList)) ≠
      clean_code ("\"\"'''a'''\"b\"\"'''c'''\"".toList) := by decide

/-- Claim C7 as amended: `clean_code` is idempotent on every input that
contains no double-quote and no single-quote character (in general a second
application can remove more, because quote fragments merged by the first
pass's span removal can form a new triple-quote span). -/
theorem clean_code_idempotent_no_quotes (x : List Char)
    (h : ∀ c ∈ x, c ≠ '"' ∧ c ≠ '\'') :
    clean_code (clean_code x) = clean_code x := by
  have hx : ∀ c ∈ clean_code x, c ∈ x := fun c hc => mem_clean_code_orig hc
  have hnh : '#' ∉ clean_code x := clean_code_no_hash x
  have hndq : '"' ∉ clean_code x := fun hm => (h _ (hx _ hm)).1 rfl
  have hnsq : '\'' ∉ clean_code x := fun hm => (h _ (hx _ hm)).2 rfl
  have h1 : hashStripped (clean_code x) = clean_code x := subHash_id hnh
  have h2 : dqStripped (clean_code x) = clean_code x := by
    show subTripF (hashStripped (clean_code x)).length '"' (hashStripped (clean_code x)) =
      clean_code x
    rw [h1]
    exact subTripF_id hndq _
  have h3 : sqStripped (clean_code x) = clean_code x := by
    show subTripF (dqStripped (clean_code x)).length '\'' (dqStripped (clean_code x)) =
      clean_code x
    rw [h2]
    exact subTripF_id hnsq _
  show joinNL ((splitNL (sqStripped (clean_code x))).filter fun line =>
    line.any fun ch => !(pySpace ch)) = clean_code x
  rw [h3]
  show joinNL ((splitNL (joinNL _)).filter fun line => line.any fun ch => !(pySpace ch)) = _
  exact joinNL_filter_fixed _ (fun l hl =>
    ⟨not_mem_nl_splitNL _ _ (List.mem_filter.mp hl).1, (List.mem_filter.mp hl).2⟩)

/-- Witness for the amended C7 at a quote-free concrete input. -/
theorem clean_code_idempotent_no_quotes_witness :
    clean_code (clean_code ("a#b\n\nc d\ne".toList)) = clean_code ("a#b\n\nc d\ne".toList) :=
  clean_code_idempotent_no_quotes ("a#b\n\nc d\ne".toList) (by decide)

/-- Claim C1 (spec-modelled, see `complete`): the gateway always invokes the
primary provider first; exactly when the primary fails it invokes the
secondary with the same unmodified prompt, and on primary success the
secondary is never invoked; when both fail the result carries
providerUsed = none and both failure messages in order. -/
theorem gateway_complete_fallback (pf sf : List Char → POut) (p : List Char) :
    (complete pf sf p).2.head? = some (Provider.primary, p) ∧
    (∀ t, pf p = POut.ok t →
      (complete pf sf p).2 = [(Provider.primary, p)] ∧
      (complete pf sf p).1.providerUsed = some Provider.primary ∧
      (complete pf sf p).1.text = t) ∧
    (∀ m, pf p = POut.fail m →
      (complete pf sf p).2 = [(Provider.primary, p), (Provider.secondary, p)]) ∧
    (∀ m1 m2, pf p = POut.fail m1 → sf p = POut.fail m2 →
      (complete pf sf p).1.providerUsed = none ∧
      (complete pf sf p).1.errors = [(Provider.primary, m1), (Provider.secondary, m2)] ∧
      (complete pf sf p).1.text = bothFailedText m1 m2) := by
  cases hp : pf p with
  | ok t => refine ⟨?_, ?_, ?_, ?_⟩ <;> simp [complete, hp]
  | fail m =>
    cases hs : sf p with
    | ok t => refine ⟨?_, ?_, ?_, ?_⟩ <;> simp [complete, hp, hs]
    | fail m2 => refine ⟨?_, ?_, ?_, ?_⟩ <;> simp [complete, hp, hs]

/-- Witness for C1: with two concrete failing providers, the gateway reports
providerUsed = none and both messages. -/
theorem gateway_complete_fallback_witness :
    (complete (fun _ => POut.fail ("a".toList)) (fun _ => POut.fail ("b".toList))
      ("q".toList)).1.providerUsed = none ∧
    (complete (fun _ => POut.fail ("a".toList)) (fun _ => POut.fail ("b".toList))
      ("q".toList)).1.errors =
      [(Provider.primary, "a".toList), (Provider.secondary, "b".toList)] := by
  have h := (gateway_complete_fallback (fun _ => POut.fail ("a".toList))
    (fun _ => POut.fail ("b".toList)) ("q".toList)).2.2.2 ("a".toList) ("b".toList) rfl rfl
  exact ⟨h.1, h.2.1⟩

/-- Counterexample to claim C2 as stated: with a configured model and a
provider whose successful reply is the empty string, `generate_code` returns
the empty string even for a non-empty prompt. -/
theorem generate_code_empty_success_counterexample :
    generate_code true (fun _ => POut.ok []) ("p".toList) = [] := rfl

/-- Claim C2 as amended: `generate_code` never propagates a provider or
configuration failure — both are converted to fixed-prefix in-band
diagnostics, which are never empty; the result equals the provider's text on
success, so it can only be empty when the provider successfully returns an
empty text. -/
theorem generate_code_inband_errors (configured : Bool) (gen : List Char → POut)
    (jp : List Char) :
    (configured = false →
      generate_code configured gen jp = apiNotConfigured ∧
      generate_code configured gen jp ≠ []) ∧
    (∀ e, configured = true → gen (genPromptPre ++ jp ++ genPromptPost) = POut.fail e →
      generate_code configured gen jp = errGenPrefix ++ e ∧
      generate_code configured gen jp ≠ []) ∧
    (∀ t, configured = true → gen (genPromptPre ++ jp ++ genPromptPost) = POut.ok t →
      generate_code configured gen jp = t) ∧
    (generate_code configured gen jp = [] →
      configured = true ∧ gen (genPromptPre ++ jp ++ genPromptPost) = POut.ok []) := by
  have hapi : apiNotConfigured ≠ [] := by decide
  have herr : errGenPrefix ≠ [] := by decide
  cases configured with
  | false =>
    refine ⟨fun _ => ⟨rfl, fun h => hapi h⟩, ?_, ?_, ?_⟩
    · intro e hc; exact absurd hc (by simp)
    · intro t hc; exact absurd hc (by simp)
    · intro he; exact absurd he hapi
  | true =>
    cases hg : gen (genPromptPre ++ jp ++ genPromptPost) with
    | ok t =>
      refine ⟨fun hc => absurd hc (by simp), ?_, ?_, ?_⟩
      · intro e _ hf
        exact absurd hf (by simp)
      · intro t' _ hok
        simp only [POut.ok.injEq] at hok
        show (match gen (genPromptPre ++ jp ++ genPromptPost) with
          | POut.ok t => t
          | POut.fail e => errGenPrefix ++ e) = t'
        rw [hg]
        subst hok
        rfl
      · intro he
        simp only [generate_code, Bool.not_true, Bool.false_eq_true, if_false, hg] at he
        exact ⟨rfl, by rw [he]⟩
    | fail e =>
      refine ⟨fun hc => absurd hc (by simp), ?_, ?_, ?_⟩
      · intro e' _ hf
        simp only [POut.fail.injEq] at hf
        constructor
        · show (match gen (genPromptPre ++ jp ++ genPromptPost) with
            | POut.ok t => t
            | POut.fail e => errGenPrefix ++ e) = errGenPrefix ++ e'
          rw [hg]
          subst hf
          rfl
        · intro h
          simp only [generate_code, Bool.not_true, Bool.false_eq_true, if_false, hg] at h
          exact herr (List.append_eq_nil.mp h).1
      · intro t _ hok
        exact absurd hok (by simp)
      · intro he
        simp only [generate_code, Bool.not_true, Bool.false_eq_true, if_false, hg] at he
        exact absurd (List.append_eq_nil.mp he).1 herr

/-- Witness for the amended C2: a concrete configuration failure yields the
concrete non-empty diagnostic. -/
theorem generate_code_inband_errors_witness :
    generate_code false (fun _ => POut.ok ("t".toList)) ("p".toList) = apiNotConfigured ∧
    generate_code false (fun _ => POut.ok ("t".toList)) ("p".toList) ≠ [] :=
  (generate_code_inband_errors false (fun _ => POut.ok ("t".toList)) ("p".toList)).1 rfl

/-- Counterexample to claim C3 as stated: a whitespace-only task description
is truthy in Python, so the generate pipeline runs and changes state. -/
theorem generate_handler_whitespace_runs_counterexample :
    (generate_handler true [' '] false (fun _ => POut.fail []) initState).json_prompt ≠
      initState.json_prompt := by decide

/-- Claim C3 as amended: the generate action is a no-op exactly when the
button is not pressed or the task description is the empty string; any
non-empty description — including whitespace-only ones — runs the pipeline
and overwrites every state field. -/
theorem generate_handler_noop_iff_empty (btn : Bool) (p : List Char) (configured : Bool)
    (gen : List Char → POut) (st : SessionState) :
    (btn = false ∨ p = [] → generate_handler btn p configured gen st = st) ∧
    (btn = true → p ≠ [] →
      generate_handler btn p configured gen st =
        { json_prompt := create_json_prompt p,
          generated_output := clean_code (extract_code_from_response
            (generate_code configured gen (create_json_prompt p))),
          modules := extract_modules_from_code (clean_code (extract_code_from_response
            (generate_code configured gen (create_json_prompt p)))),
          explanation := [] }) := by
  constructor
  · rintro (hb | hp)
    · subst hb; rfl
    · subst hp; simp [generate_handler]
  · intro hb hp
    subst hb
    have hne : !p.isEmpty = true := by
      cases p with
      | nil => exact absurd rfl hp
      | cons c r => rfl
    simp [generate_handler, hne, hp]

/-- Witness for the amended C3: concrete no-op with the button not pressed. -/
theorem generate_handler_noop_iff_empty_witness :
    generate_handler false ("x".toList) true (fun _ => POut.ok []) initState = initState :=
  (generate_handler_noop_iff_empty false ("x".toList) true (fun _ => POut.ok []) initState).1
    (Or.inl rfl)

/-- Claim C9: every completed generate action (button pressed, non-empty task
description) stores the empty explanation, clearing any previous one, so an
explanation is only ever associated with the most recently generated code. -/
theorem generate_clears_explanation (btn : Bool) (p : List Char) (configured : Bool)
    (gen : List Char → POut) (st : SessionState) (hb : btn = true) (hp : p ≠ []) :
    (generate_handler btn p configured gen st).explanation = [] := by
  subst hb
  have hne : !p.isEmpty = true := by
    cases p with
    | nil => exact absurd rfl hp
    | cons c r => rfl
  simp [generate_handler, hne, hp]

/-- Witness for C9: a concrete generate action clears a concrete previous
explanation. -/
theorem generate_clears_explanation_witness :
    (generate_handler true ("add two numbers".toList) true (fun _ => POut.ok ("ok".toList))
      ⟨"j".toList, "g".toList, [], "old explanation".toList⟩).explanation = [] :=
  generate_clears_explanation true ("add two numbers".toList) true
    (fun _ => POut.ok ("ok".toList)) ⟨"j".toList, "g".toList, [], "old explanation".toList⟩
    rfl (by decide)

theorem lexLt_irrefl : ∀ a : List Char, lexLt a a = false := by
  intro a
  induction a with
  | nil => rfl
  | cons c as ih => simp [lexLt, ih]

theorem lexLt_trans : ∀ a b c : List Char,
    lexLt a b = true → lexLt b c = true → lexLt a c = true := by
  intro a
  induction a with
  | nil =>
    intro b c hab hbc
    cases b with
    | nil => simp [lexLt] at hab
    | cons y bs =>
      cases c with
      | nil => simp [lexLt] at hbc
      | cons z cs => rfl
  | cons x as ih =>
    intro b c hab hbc
    cases b with
    | nil => simp [lexLt] at hab
    | cons y bs =>
      cases c with
      | nil => simp [lexLt] at hbc
      | cons z cs =>
        simp only [lexLt, Bool.or_eq_true, Bool.and_eq_true, decide_eq_true_eq] at hab hbc ⊢
        rcases hab with h1 | ⟨h1e, h1l⟩ <;> rcases hbc with h2 | ⟨h2e, h2l⟩
        · exact Or.inl (lt_trans h1 h2)
        · exact Or.inl (h2e ▸ h1)
        · exact Or.inl (h1e ▸ h2)
        · exact Or.inr ⟨h1e.trans h2e, ih bs cs h1l h2l⟩

theorem lexLt_asymm : ∀ a b : List Char, lexLt a b = true → lexLt b a = false := by
  intro a b hab
  cases hba : lexLt b a with
  | false => rfl
  | true =>
    have := lexLt_trans a b a hab hba
    rw [lexLt_irrefl] at this
    exact Bool.noConfusion this

theorem lexLt_total : ∀ a b : List Char, lexLt a b = true ∨ lexLt b a = true ∨ a = b := by
  intro a
  induction a with
  | nil =>
    intro b
    cases b with
    | nil => exact Or.inr (Or.inr rfl)
    | cons y bs => exact Or.inl rfl
  | cons x as ih =>
    intro b
    cases b with
    | nil => exact Or.inr (Or.inl rfl)
    | cons y bs =>
      rcases lt_trichotomy x y with h | h | h
      · left; simp [lexLt, h]
      · subst h
        rcases ih bs with h2 | h2 | h2
        · left; simp [lexLt, h2]
        · right; left; simp [lexLt, h2]
        · right; right; rw [h2]
      · right; left; simp [lexLt, h]

theorem lexLe_total : ∀ a b : List Char, lexLe a b = true ∨ lexLe b a = true := by
  intro a b
  rcases lexLt_total a b with h | h | h
  · left; simp [lexLe, lexLt_asymm _ _ h]
  · right; simp [lexLe, lexLt_asymm _ _ h]
  · left; subst h; simp [lexLe, lexLt_irrefl]

theorem lexLe_trans : ∀ a b c : List Char,
    lexLe a b = true → lexLe b c = true → lexLe a c = true := by
  intro a b c hab hbc
  simp only [lexLe, Bool.not_eq_true'] at hab hbc ⊢
  cases hca : lexLt c a with
  | false => rfl
  | true =>
    exfalso
    rcases lexLt_total a b with h | h | h
    · have := lexLt_trans c a b hca h
      rw [hbc] at this
      exact Bool.noConfusion this
    · rw [hab] at h
      exact Bool.noConfusion h
    · subst h
      rw [hbc] at hca
      exact Bool.noConfusion hca

theorem mem_insertLex (x y : List Char) (l : List (List Char)) :
    y ∈ insertLex x l ↔ y = x ∨ y ∈ l := by
  induction l with
  | nil => simp [insertLex]
  | cons z zs ih =>
    by_cases h : lexLe x z = true
    · rw [show insertLex x (z :: zs) = x :: z :: zs from by simp [insertLex, h]]
      simp only [List.mem_cons]
    · rw [show insertLex x (z :: zs) = z :: insertLex x zs from by simp [insertLex, h]]
      simp only [List.mem_cons, ih]
      tauto

theorem insertLex_perm (x : List Char) (l : List (List Char)) :
    List.Perm (insertLex x l) (x :: l) := by
  induction l with
  | nil => exact List.Perm.refl _
  | cons z zs ih =>
    by_cases h : lexLe x z = true
    · rw [show insertLex x (z :: zs) = x :: z :: zs from by simp [insertLex, h]]
    · rw [show insertLex x (z :: zs) = z :: insertLex x zs from by simp [insertLex, h]]
      exact List.Perm.trans (List.Perm.cons z ih) (List.Perm.swap x z zs)

theorem sortLex_perm : ∀ l : List (List Char), List.Perm (sortLex l) l := by
  intro l
  induction l with
  | nil => exact List.Perm.refl _
  | cons x xs ih => exact List.Perm.trans (insertLex_perm x (sortLex xs)) (List.Perm.cons x ih)

theorem insertLex_pairwise (x : List Char) (l : List (List Char))
    (h : List.Pairwise (fun a b => lexLe a b = true) l) :
    List.Pairwise (fun a b => lexLe a b = true) (insertLex x l) := by
  induction l with
  | nil => simp [insertLex]
  | cons z zs ih =>
    have hz := List.pairwise_cons.mp h
    by_cases hxz : lexLe x z = true
    · rw [show insertLex x (z :: zs) = x :: z :: zs from by simp [insertLex, hxz]]
      refine List.Pairwise.cons ?_ h
      intro y hy
      rcases List.mem_cons.mp hy with rfl | hy'
      · exact hxz
      · exact lexLe_trans x z y hxz (hz.1 y hy')
    · rw [show insertLex x (z :: zs) = z :: insertLex x zs from by simp [insertLex, hxz]]
      refine List.Pairwise.cons ?_ (ih hz.2)
      intro y hy
      rcases (mem_insertLex x y zs).mp hy with hy1 | hy'
      · rcases lexLe_total x z with h' | h'
        · exact absurd h' hxz
        · rw [hy1]; exact h'
      · exact hz.1 y hy'

theorem sortLex_pairwise : ∀ l : List (List Char),
    List.Pairwise (fun a b => lexLe a b = true) (sortLex l) := by
  intro l
  induction l with
  | nil => exact List.Pairwise.nil
  | cons x xs ih => exact insertLex_pairwise x (sortLex xs) ih

theorem sortLex_nodup {l : List (List Char)} (h : l.Nodup) : (sortLex l).Nodup :=
  ((sortLex_perm l).nodup_iff).mpr h

theorem mem_sortLex {y : List Char} {l : List (List Char)} :
    y ∈ sortLex l ↔ y ∈ l := (sortLex_perm l).mem_iff

theorem dropWhile_head_false {p : Char → Bool} :
    ∀ {l : List Char} {c : Char} {r : List Char}, l.dropWhile p = c :: r → p c = false := by
  intro l
  induction l with
  | nil => intro c r h; simp at h
  | cons x xs ih =>
    intro c r h
    by_cases hx : p x = true
    · rw [List.dropWhile_cons, if_pos hx] at h
      exact ih h
    · rw [List.dropWhile_cons, if_neg hx] at h
      simp only [List.cons.injEq] at h
      rw [← h.1]
      cases hpx : p x with
      | false => rfl
      | true => exact absurd hpx hx

theorem takeWhile_append_ne_nil {p : Char → Bool} {a : List Char} (b : List Char)
    (h : a.dropWhile p ≠ []) :
    (a ++ b).takeWhile p = a.takeWhile p ∧ (a ++ b).dropWhile p = a.dropWhile p ++ b := by
  induction a with
  | nil => exact absurd rfl h
  | cons c cs ih =>
    by_cases hc : p c = true
    · have h' : cs.dropWhile p ≠ [] := by
        intro hnil
        apply h
        rw [List.dropWhile_cons, if_pos hc, hnil]
      obtain ⟨h1, h2⟩ := ih h'
      constructor
      · rw [List.cons_append, List.takeWhile_cons, if_pos hc, h1,
          List.takeWhile_cons, if_pos hc]
      · rw [List.cons_append, List.dropWhile_cons, if_pos hc, h2,
          List.dropWhile_cons, if_pos hc]
    · constructor
      · rw [List.cons_append, List.takeWhile_cons, if_neg hc, List.takeWhile_cons, if_neg hc]
      · rw [List.cons_append, List.dropWhile_cons, if_neg hc, List.dropWhile_cons, if_neg hc]
        rfl

theorem dropWhile_append_all {p : Char → Bool} {a : List Char} (b : List Char)
    (h : a.dropWhile p = []) :
    (a ++ b).takeWhile p = a ++ b.takeWhile p ∧ (a ++ b).dropWhile p = b.dropWhile p := by
  induction a with
  | nil => simp
  | cons c cs ih =>
    have hc : p c = true := by
      by_contra hc
      rw [List.dropWhile_cons, if_neg hc] at h
      exact List.noConfusion h
    have h' : cs.dropWhile p = [] := by
      rw [List.dropWhile_cons, if_pos hc] at h
      exact h
    obtain ⟨h1, h2⟩ := ih h'
    constructor
    · rw [List.cons_append, List.takeWhile_cons, if_pos hc, h1]
      rfl
    · rw [List.cons_append, List.dropWhile_cons, if_pos hc, h2]

/-- For a predicate false on the newline (here: the word-character class),
take/drop of a maximal run is unaffected by text after the next newline. -/
theorem takeWhile_append_nl {p : Char → Bool} (a rest : List Char) (hp : p '\n' = false) :
    (a ++ '\n' :: rest).takeWhile p = a.takeWhile p ∧
    (a ++ '\n' :: rest).dropWhile p = a.dropWhile p ++ '\n' :: rest := by
  by_cases h : a.dropWhile p = []
  · obtain ⟨h1, h2⟩ := dropWhile_append_all ('\n' :: rest) h
    have hall : a.takeWhile p = a := by
      have := List.takeWhile_append_dropWhile p a
      rw [h] at this
      simpa using this
    constructor
    · rw [h1, List.takeWhile_cons, if_neg (by rw [hp]; exact fun hx => Bool.noConfusion hx), hall]
      simp
    · rw [h2, List.dropWhile_cons, if_neg (by rw [hp]; exact fun hx => Bool.noConfusion hx), h]
      rfl
  · exact takeWhile_append_ne_nil _ h

theorem matchTail_some_elim {t nm tl : List Char} (h : matchTail t = some (nm, tl)) :
    ∃ c r, t.dropWhile pySpace = c :: r ∧ pyWord c = true ∧
      nm = (c :: r).takeWhile pyWord ∧ tl = (c :: r).dropWhile pyWord ∧
      (t.takeWhile pySpace).isEmpty = false := by
  unfold matchTail at h
  by_cases he : (t.takeWhile pySpace).isEmpty = true
  · rw [if_pos he] at h
    exact absurd h (by simp)
  · rw [if_neg he] at h
    cases hd : t.dropWhile pySpace with
    | nil =>
      rw [hd] at h
      exact absurd h (by simp)
    | cons c r =>
      rw [hd] at h
      have h' : (if pyWord c then
          some ((c :: r).takeWhile pyWord, (c :: r).dropWhile pyWord) else none) =
          some (nm, tl) := h
      by_cases hw : pyWord c = true
      · rw [if_pos hw] at h'
        simp only [Option.some.injEq, Prod.mk.injEq] at h'
        exact ⟨c, r, rfl, hw, h'.1.symm, h'.2.symm, Bool.not_eq_true _ ▸ he⟩
      · rw [if_neg hw] at h'
        exact absurd h' (by simp)

theorem tryMatch_some_elim {s nm tl : List Char} (h : tryMatch s = some (nm, tl)) :
    (pre kwImport s = true ∧ matchTail (s.drop 6) = some (nm, tl)) ∨
    (pre kwImport s = false ∧ pre kwFrom s = true ∧ matchTail (s.drop 4) = some (nm, tl)) := by
  unfold tryMatch at h
  by_cases h1 : pre kwImport s = true
  · rw [if_pos h1] at h
    exact Or.inl ⟨h1, h⟩
  · rw [if_neg h1] at h
    by_cases h2 : pre kwFrom s = true
    · rw [if_pos h2] at h
      exact Or.inr ⟨Bool.not_eq_true _ ▸ h1, h2, h⟩
    · rw [if_neg h2] at h
      exact absurd h (by simp)

theorem tryMatch_name_ne_nil {s nm tl : List Char} (h : tryMatch s = some (nm, tl)) :
    nm ≠ [] := by
  have hmt : ∃ k, matchTail (s.drop k) = some (nm, tl) := by
    rcases tryMatch_some_elim h with ⟨_, hm⟩ | ⟨_, _, hm⟩
    · exact ⟨6, hm⟩
    · exact ⟨4, hm⟩
  obtain ⟨k, hm⟩ := hmt
  obtain ⟨c, r, _, hw, hnm, _, _⟩ := matchTail_some_elim hm
  rw [hnm, List.takeWhile_cons, if_pos hw]
  simp

theorem tryMatch_rest_length {s nm tl : List Char} (h : tryMatch s = some (nm, tl)) :
    tl.length < s.length := by
  have hmt : ∃ k, 4 ≤ k ∧ k ≤ s.length ∧ matchTail (s.drop k) = some (nm, tl) := by
    rcases tryMatch_some_elim h with ⟨hk, hm⟩ | ⟨_, hk, hm⟩
    · refine ⟨6, by omega, ?_, hm⟩
      have := pre_length_le hk
      have h6 : kwImport.length = 6 := by decide
      omega
    · refine ⟨4, by omega, ?_, hm⟩
      have := pre_length_le hk
      have h4 : kwFrom.length = 4 := by decide
      omega
  obtain ⟨k, hk4, hks, hm⟩ := hmt
  obtain ⟨c, r, hd, _, _, htl, _⟩ := matchTail_some_elim hm
  have h1 : tl.length ≤ (c :: r).length := by
    rw [htl]
    exact (List.dropWhile_sublist _).length_le
  have h2 : (c :: r).length ≤ (s.drop k).length := by
    rw [← hd]
    exact (List.dropWhile_sublist _).length_le
  have h3 : (s.drop k).length = s.length - k := List.length_drop k s
  omega

theorem tryMatch_rest_subset {s nm tl : List Char} (h : tryMatch s = some (nm, tl)) :
    ∀ x ∈ tl, x ∈ s := by
  have hmt : ∃ k, matchTail (s.drop k) = some (nm, tl) := by
    rcases tryMatch_some_elim h with ⟨_, hm⟩ | ⟨_, _, hm⟩
    · exact ⟨6, hm⟩
    · exact ⟨4, hm⟩
  obtain ⟨k, hm⟩ := hmt
  obtain ⟨c, r, hd, _, _, htl, _⟩ := matchTail_some_elim hm
  intro x hx
  rw [htl] at hx
  have h1 : x ∈ c :: r := (List.dropWhile_sublist _).mem hx
  rw [← hd] at h1
  have h2 : x ∈ s.drop k := (List.dropWhile_sublist _).mem h1
  exact List.mem_of_mem_drop h2

/-- Crossing a newline cannot change one `\s+(\w+)` attempt whose whitespace
run already ends, within the line, at a visible character: the capture is
unchanged and the remainder extends past the newline. -/
theorem matchTail_append {t : List Char} (rest : List Char)
    (hgood : t.dropWhile pySpace ≠ []) :
    matchTail (t ++ '\n' :: rest) =
      match matchTail t with
      | none => none
      | some (nm, tl) => some (nm, tl ++ '\n' :: rest) := by
  obtain ⟨h1, h2⟩ := takeWhile_append_ne_nil ('\n' :: rest) hgood
  cases hd : t.dropWhile pySpace with
  | nil => exact absurd hd hgood
  | cons c r0 =>
    by_cases he : (t.takeWhile pySpace).isEmpty = true
    · rw [show matchTail t = none from by unfold matchTail; rw [if_pos he]]
      unfold matchTail
      rw [h1, if_pos he]
    · have hL1 : matchTail (t ++ '\n' :: rest) =
          match (c :: r0) ++ '\n' :: rest with
          | [] => none
          | c' :: r' =>
            if pyWord c' then some ((c' :: r').takeWhile pyWord, (c' :: r').dropWhile pyWord)
            else none := by
        unfold matchTail
        rw [h1, if_neg he, h2, hd]
      have hR1 : matchTail t =
          match c :: r0 with
          | [] => none
          | c' :: r' =>
            if pyWord c' then some ((c' :: r').takeWhile pyWord, (c' :: r').dropWhile pyWord)
            else none := by
        unfold matchTail
        rw [if_neg he, hd]
      rw [hL1, hR1]
      show (if pyWord c then
          some ((c :: (r0 ++ '\n' :: rest)).takeWhile pyWord,
            (c :: (r0 ++ '\n' :: rest)).dropWhile pyWord)
        else none) =
        match (if pyWord c then
          some ((c :: r0).takeWhile pyWord, (c :: r0).dropWhile pyWord) else none) with
        | none => none
        | some (nm, tl) => some (nm, tl ++ '\n' :: rest)
      by_cases hw : pyWord c = true
      · rw [if_pos hw, if_pos hw]
        obtain ⟨ht1, ht2⟩ := @takeWhile_append_nl pyWord (c :: r0) rest (by decide)
        show some ((c :: (r0 ++ '\n' :: rest)).takeWhile pyWord,
            (c :: (r0 ++ '\n' :: rest)).dropWhile pyWord) =
          some ((c :: r0).takeWhile pyWord, (c :: r0).dropWhile pyWord ++ '\n' :: rest)
        rw [show c :: (r0 ++ '\n' :: rest) = (c :: r0) ++ '\n' :: rest from rfl, ht1, ht2]
      · rw [if_neg hw, if_neg hw]

/-- On a line whose line-start keyword (if any) is followed within the line by
whitespace and a visible character, one whole-pattern attempt at the start of
`line ++ '\n' :: rest` behaves exactly like the attempt on `line` alone, with
the remainder extended past the newline. -/
theorem tryMatch_append_newline {line rest : List Char}
    (hgi : pre kwImport line = true → (line.drop 6).dropWhile pySpace ≠ [])
    (hgf : pre kwFrom line = true → (line.drop 4).dropWhile pySpace ≠ []) :
    tryMatch (line ++ '\n' :: rest) =
      match tryMatch line with
      | none => none
      | some (nm, tl) => some (nm, tl ++ '\n' :: rest) := by
  unfold tryMatch
  rw [pre_append_newline (by decide : '\n' ∉ kwImport),
    pre_append_newline (by decide : '\n' ∉ kwFrom)]
  by_cases h1 : pre kwImport line = true
  · rw [if_pos h1, if_pos h1]
    have hlen : 6 ≤ line.length := by
      have ha := pre_length_le h1
      have hb : kwImport.length = 6 := by decide
      omega
    rw [List.drop_append_of_le_length hlen]
    exact matchTail_append rest (hgi h1)
  · rw [if_neg h1, if_neg h1]
    by_cases h2 : pre kwFrom line = true
    · rw [if_pos h2, if_pos h2]
      have hlen : 4 ≤ line.length := by
        have ha := pre_length_le h2
        have hb : kwFrom.length = 4 := by decide
        omega
      rw [List.drop_append_of_le_length hlen]
      exact matchTail_append rest (hgf h2)
    · rw [if_neg h2, if_neg h2]

theorem scanImports_false_no_nl : ∀ (f : Nat) (s : List Char), '\n' ∉ s →
    scanImports f s false = [] := by
  intro f
  induction f with
  | zero => intro s _; rfl
  | succ f ih =>
    intro s h
    cases s with
    | nil => rfl
    | cons c r =>
      have hc : (decide (c = '\n')) = false := by
        simp only [decide_eq_false_iff_not]
        exact fun hx => h (hx ▸ List.mem_cons_self c r)
      rw [show scanImports (f + 1) (c :: r) false = scanImports f r (decide (c = '\n')) from by
        simp [scanImports]]
      rw [hc]
      exact ih r (fun hx => h (List.mem_cons_of_mem c hx))

theorem scan_mem_ne_nil : ∀ (f : Nat) (s : List Char) (b : Bool) (nm : List Char),
    nm ∈ scanImports f s b → nm ≠ [] := by
  intro f
  induction f with
  | zero => intro s b nm h; simp [scanImports] at h
  | succ f ih =>
    intro s b nm h
    cases s with
    | nil => simp [scanImports] at h
    | cons c r =>
      cases b with
      | true =>
        cases htm : tryMatch (c :: r) with
        | some p =>
          obtain ⟨nm', tl⟩ := p
          rw [show scanImports (f + 1) (c :: r) true = nm' :: scanImports f tl false from by
            simp [scanImports, htm]] at h
          rcases List.mem_cons.mp h with rfl | h'
          · exact tryMatch_name_ne_nil htm
          · exact ih tl false nm h'
        | none =>
          rw [show scanImports (f + 1) (c :: r) true = scanImports f r (decide (c = '\n')) from by
            simp [scanImports, htm]] at h
          exact ih _ _ _ h
      | false =>
        rw [show scanImports (f + 1) (c :: r) false = scanImports f r (decide (c = '\n')) from by
          simp [scanImports]] at h
        exact ih _ _ _ h

theorem scan_fuel : ∀ (f1 f2 : Nat) (s : List Char) (b : Bool),
    s.length ≤ f1 → s.length ≤ f2 → scanImports f1 s b = scanImports f2 s b := by
  intro f1
  induction f1 with
  | zero =>
    intro f2 s b h1 _
    have : s = [] := List.eq_nil_of_length_eq_zero (Nat.le_zero.mp h1)
    subst this
    cases f2 <;> rfl
  | succ f1 ih =>
    intro f2 s b h1 h2
    cases s with
    | nil => cases f2 <;> rfl
    | cons c r =>
      cases f2 with
      | zero => simp at h2
      | succ f2 =>
        have hr1 : r.length ≤ f1 := by simp at h1; omega
        have hr2 : r.length ≤ f2 := by simp at h2; omega
        cases b with
        | false =>
          rw [show scanImports (f1 + 1) (c :: r) false = scanImports f1 r (decide (c = '\n'))
              from by simp [scanImports],
            show scanImports (f2 + 1) (c :: r) false = scanImports f2 r (decide (c = '\n'))
              from by simp [scanImports]]
          exact ih f2 r _ hr1 hr2
        | true =>
          cases htm : tryMatch (c :: r) with
          | some p =>
            obtain ⟨nm, tl⟩ := p
            rw [show scanImports (f1 + 1) (c :: r) true = nm :: scanImports f1 tl false from by
              simp [scanImports, htm],
              show scanImports (f2 + 1) (c :: r) true = nm :: scanImports f2 tl false from by
              simp [scanImports, htm]]
            have hlt := tryMatch_rest_length htm
            simp only [List.length_cons] at hlt
            rw [ih f2 tl false (by omega) (by omega)]
          | none =>
            rw [show scanImports (f1 + 1) (c :: r) true = scanImports f1 r (decide (c = '\n'))
              from by simp [scanImports, htm],
              show scanImports (f2 + 1) (c :: r) true = scanImports f2 r (decide (c = '\n'))
              from by simp [scanImports, htm]]
            exact ih f2 r _ hr1 hr2

theorem scanImports_false_append : ∀ (f : Nat) (a rest : List Char), '\n' ∉ a →
    (a ++ '\n' :: rest).length ≤ f →
    scanImports f (a ++ '\n' :: rest) false = scanImports rest.length rest true := by
  intro f
  induction f with
  | zero => intro a rest _ hl; simp at hl
  | succ f ih =>
    intro a rest h hl
    cases a with
    | nil =>
      rw [show scanImports (f + 1) ([] ++ '\n' :: rest) false =
          scanImports f rest (decide ('\n' = '\n')) from by simp [scanImports]]
      rw [show (decide ('\n' = '\n')) = true from by decide]
      exact scan_fuel f rest.length rest true (by simp at hl; omega) le_rfl
    | cons c a' =>
      have hc : (decide (c = '\n')) = false := by
        simp only [decide_eq_false_iff_not]
        exact fun hx => h (hx ▸ List.mem_cons_self c a')
      rw [show scanImports (f + 1) ((c :: a') ++ '\n' :: rest) false =
          scanImports f (a' ++ '\n' :: rest) (decide (c = '\n')) from by
        simp [scanImports, List.cons_append]]
      rw [hc]
      exact ih a' rest (fun hx => h (List.mem_cons_of_mem c hx)) (by simp at hl ⊢; omega)

theorem exists_first_newline : ∀ (s : List Char), '\n' ∈ s →
    ∃ line rest, s = line ++ '\n' :: rest ∧ '\n' ∉ line := by
  intro s
  induction s with
  | nil => intro h; simp at h
  | cons c r ih =>
    intro h
    by_cases hc : c = '\n'
    · exact ⟨[], r, by rw [hc]; rfl, by simp⟩
    · have hr : '\n' ∈ r := by
        rcases List.mem_cons.mp h with h' | h'
        · exact absurd h'.symm hc
        · exact h'
      obtain ⟨line, rest, hs, hline⟩ := ih hr
      refine ⟨c :: line, rest, by rw [hs]; rfl, ?_⟩
      intro hm
      rcases List.mem_cons.mp hm with h' | h'
      · exact hc h'.symm
      · exact hline h'

theorem goodLines_spec {code : List Char} (hg : goodLines code = true) :
    ∀ line ∈ splitNL code,
      (pre kwImport line = true → (line.drop 6).dropWhile pySpace ≠ []) ∧
      (pre kwFrom line = true → (line.drop 4).dropWhile pySpace ≠ []) := by
  intro line hm
  have h := List.all_eq_true.mp hg line hm
  simp only [Bool.and_eq_true, Bool.or_eq_true, Bool.not_eq_true'] at h
  constructor
  · intro hki
    rcases h.1 with h' | h'
    · rw [hki] at h'
      exact Bool.noConfusion h'
    · intro hnil
      rw [hnil] at h'
      simp at h'
  · intro hkf
    rcases h.2 with h' | h'
    · rw [hkf] at h'
      exact Bool.noConfusion h'
    · intro hnil
      rw [hnil] at h'
      simp at h'

/-- On inputs where every line-start keyword is followed, within its own
line, by whitespace and then a visible character, the multiline regex scan
agrees with the line-by-line description. -/
theorem scan_perline : ∀ (n : Nat) (s : List Char) (f : Nat), s.length ≤ n → s.length ≤ f →
    goodLines s = true →
    scanImports f s true = (splitNL s).filterMap lineImportName := by
  intro n
  induction n with
  | zero =>
    intro s f h1 _ _
    have : s = [] := List.eq_nil_of_length_eq_zero (Nat.le_zero.mp h1)
    subst this
    cases f <;> rfl
  | succ n ih =>
    intro s f h1 hf hg
    by_cases hnl : '\n' ∈ s
    · obtain ⟨line, rest, hs, hline⟩ := exists_first_newline s hnl
      subst hs
      have hsplit : splitNL (line ++ '\n' :: rest) = line :: splitNL rest :=
        splitNL_append_newline rest hline
      have hgline := goodLines_spec hg line (by rw [hsplit]; exact List.mem_cons_self _ _)
      have hgrest : goodLines rest = true := by
        unfold goodLines at hg ⊢
        rw [hsplit] at hg
        simp only [List.all_cons, Bool.and_eq_true] at hg
        exact hg.2
      have hrest_n : rest.length ≤ n := by
        have : (line ++ '\n' :: rest).length = line.length + 1 + rest.length := by
          simp
          omega
        omega
      cases f with
      | zero => simp at hf
      | succ f' =>
        have hrest_len : line.length + 1 + rest.length ≤ f' + 1 := by
          have : (line ++ '\n' :: rest).length = line.length + 1 + rest.length := by
            simp
            omega
          omega
        have htm := @tryMatch_append_newline line rest hgline.1 hgline.2
        rw [hsplit, List.filterMap_cons]
        cases line with
        | nil =>
          have htmr : tryMatch ('\n' :: rest) = none := rfl
          simp only [List.length_nil] at hrest_len
          rw [show scanImports (f' + 1) ([] ++ '\n' :: rest) true = scanImports f' rest true
            from by simp [scanImports, htmr]]
          rw [scan_fuel f' rest.length rest true (by omega) le_rfl]
          rw [ih rest rest.length hrest_n le_rfl hgrest]
          rfl
        | cons c l' =>
          have hc : (decide (c = '\n')) = false := by
            simp only [decide_eq_false_iff_not]
            exact fun hx => hline (hx ▸ List.mem_cons_self c l')
          have hlc : '\n' ∉ l' := fun hx => hline (List.mem_cons_of_mem c hx)
          cases htl : tryMatch (c :: l') with
          | none =>
            rw [htl] at htm
            have htm' : tryMatch (c :: (l' ++ '\n' :: rest)) = none := htm
            rw [show scanImports (f' + 1) ((c :: l') ++ '\n' :: rest) true =
                scanImports f' (l' ++ '\n' :: rest) (decide (c = '\n')) from by
              simp [scanImports, List.cons_append, htm']]
            rw [hc]
            have hfl : (l' ++ '\n' :: rest).length ≤ f' := by
              simp only [List.length_append, List.length_cons] at hrest_len ⊢
              omega
            rw [scanImports_false_append f' l' rest hlc hfl]
            rw [ih rest rest.length hrest_n le_rfl hgrest]
            rw [show lineImportName (c :: l') = none from by
              unfold lineImportName
              rw [htl]
              rfl]
          | some p =>
            obtain ⟨nm, tl⟩ := p
            rw [htl] at htm
            have htm' : tryMatch (c :: (l' ++ '\n' :: rest)) = some (nm, tl ++ '\n' :: rest) :=
              htm
            rw [show scanImports (f' + 1) ((c :: l') ++ '\n' :: rest) true =
                nm :: scanImports f' (tl ++ '\n' :: rest) false from by
              simp [scanImports, List.cons_append, htm']]
            have htlnl : '\n' ∉ tl := fun hx => hline (tryMatch_rest_subset htl '\n' hx)
            have htl_len := tryMatch_rest_length htl
            simp only [List.length_cons] at htl_len
            have hfl2 : (tl ++ '\n' :: rest).length ≤ f' := by
              simp only [List.length_append, List.length_cons] at hrest_len ⊢
              omega
            rw [scanImports_false_append f' tl rest htlnl hfl2]
            rw [ih rest rest.length hrest_n le_rfl hgrest]
            rw [show lineImportName (c :: l') = some nm from by
              unfold lineImportName
              rw [htl]
              rfl]
    · have hsplit : splitNL s = [s] := splitNL_no_newline hnl
      rw [hsplit, List.filterMap_cons]
      cases s with
      | nil => cases f <;> rfl
      | cons c r =>
        cases f with
        | zero => simp at hf
        | succ f' =>
          have hrnl : '\n' ∉ r := fun hx => hnl (List.mem_cons_of_mem c hx)
          cases htl : tryMatch (c :: r) with
          | none =>
            rw [show scanImports (f' + 1) (c :: r) true =
                scanImports f' r (decide (c = '\n')) from by simp [scanImports, htl]]
            rw [show (decide (c = '\n')) = false from by
              simp only [decide_eq_false_iff_not]
              exact fun hx => hnl (hx ▸ List.mem_cons_self c r)]
            rw [scanImports_false_no_nl f' r hrnl]
            rw [show lineImportName (c :: r) = none from by
              unfold lineImportName
              rw [htl]
              rfl]
            rfl
          | some p =>
            obtain ⟨nm, tl⟩ := p
            rw [show scanImports (f' + 1) (c :: r) true = nm :: scanImports f' tl false from by
              simp [scanImports, htl]]
            have htlnl : '\n' ∉ tl := fun hx => hnl (tryMatch_rest_subset htl '\n' hx)
            rw [scanImports_false_no_nl f' tl htlnl]
            rw [show lineImportName (c :: r) = some nm from by
              unfold lineImportName
              rw [htl]
              rfl]
            rfl

/-- Counterexample to claim C8 as stated: the whitespace separator `\s+` of
the import regex matches newlines, so on "import\nos" the scan captures "os"
from the line after the bare keyword, while no single line matches the
patterns — the code's result is not the per-line capture set. -/
theorem extract_modules_crossline_counterexample :
    extract_modules_from_code ("import\nos".toList) = ["os".toList] ∧
    perLineModules ("import\nos".toList) = [] ∧
    extract_modules_from_code ("import\nos".toList) ≠ perLineModules ("import\nos".toList) := by
  refine ⟨by decide, by decide, by decide⟩

/-- Claim C8 as amended: `extract_modules_from_code` always returns a
lexicographically sorted list without duplicates and without empty entries
(in particular a relative import contributes nothing and never crashes the
scan); and whenever every line-start `import`/`from` keyword is followed on
its own line by whitespace and a word character, the result is exactly the
sorted deduplicated set of names captured line by line (otherwise the `\s+`
separator may cross a newline and capture a name from a following line). -/
theorem extract_modules_sorted_nodup_perline (code : List Char) :
    List.Pairwise (fun a b => lexLe a b = true) (extract_modules_from_code code) ∧
    (extract_modules_from_code code).Nodup ∧
    [] ∉ extract_modules_from_code code ∧
    (goodLines code = true → extract_modules_from_code code = perLineModules code) := by
  refine ⟨sortLex_pairwise _, sortLex_nodup (List.nodup_dedup _), ?_, ?_⟩
  · intro hmem
    have h1 : ([] : List Char) ∈ (scanImports code.length code true).dedup :=
      mem_sortLex.mp hmem
    have h2 := List.mem_dedup.mp h1
    exact scan_mem_ne_nil _ _ _ _ h2 rfl
  · intro hg
    unfold extract_modules_from_code perLineModules
    rw [scan_perline code.length code code.length le_rfl le_rfl hg]

/-- Witness for the amended C8 on the spec's own example: sorted,
deduplicated, indented import excluded, matching the per-line description. -/
theorem extract_modules_sorted_nodup_perline_witness :
    extract_modules_from_code
        ("import os\nfrom collections import OrderedDict\n    import indented_skip".toList) =
      perLineModules
        ("import os\nfrom collections import OrderedDict\n    import indented_skip".toList) :=
  (extract_modules_sorted_nodup_perline
    ("import os\nfrom collections import OrderedDict\n    import indented_skip".toList)).2.2.2
    (by decide)
